import Mathlib

/-!
Shallow embedding of the AudioDetective DSP and fingerprinting core,
together with proofs of the specification claims.

Sources embedded:
* `src/dsp/dft.py` (fft / stft / dft and helpers)
* `src/dsp/spectogram.py` (real_spectogram)
* `src/dsp/decimation.py` (decimate and helpers)
* `src/audiodetective/dsp/windows.py` (hamming / cosine / fir)
* `src/audiodetective/audiofingerprint/fingerprint.py` (fingerprint generation)
* `src/audiofingerprint/match.py` (fingerprint matching)

Real and complex arithmetic is embedded exactly (over `ℝ` and `ℂ`); Python
floats are modelled by exact reals.  Python `assert` statements that can fail
on the inputs a claim quantifies over are modelled by `Option` results.
-/

namespace AudioDetective

open Complex

/-- EmbedNote: `signal[0::2]` — the elements of a list at indices `0, 2, 4, ...`. -/
def evens (l : List ℂ) : List ℂ :=
  (List.range ((l.length + 1) / 2)).map (fun m => l.getD (2 * m) 0)

/-- EmbedNote: `signal[1::2]` — the elements of a list at indices `1, 3, 5, ...`. -/
def odds (l : List ℂ) : List ℂ :=
  (List.range (l.length / 2)).map (fun m => l.getD (2 * m + 1) 0)

/-- EmbedNote: the value `cmath.exp(-2j * math.pi * (k / count))`. -/
noncomputable def twiddleVal (count k : ℕ) : ℂ :=
  Complex.exp (-(2 * (Real.pi : ℂ) * Complex.I) * ((k : ℂ) / (count : ℂ)))

/-- EmbedNote: the list `[cmath.exp(-2j * math.pi * (k / count)) for k in range(count // 2)]`
of twiddle factors used by `cooley_tukey` in `src/dsp/dft.py`. -/
noncomputable def twiddle (count : ℕ) : List ℂ :=
  (List.range (count / 2)).map (fun k => twiddleVal count k)

/-- EmbedNote: the recursive helper `cooley_tukey` of `fft` in `src/dsp/dft.py`.
The Python code asserts that the length is a power of two and handles the
base case `count == 1`; lengths `0` and `1` are returned unchanged here, which
agrees with the Python behaviour on every input on which its assert holds. -/
noncomputable def cooleyTukey (signal : List ℂ) : List ℂ :=
  if signal.length ≤ 1 then signal
  else
    List.zipWith3 (fun e o t => e + t * o)
      (cooleyTukey (evens signal)) (cooleyTukey (odds signal)) (twiddle signal.length) ++
    List.zipWith3 (fun e o t => e - t * o)
      (cooleyTukey (evens signal)) (cooleyTukey (odds signal)) (twiddle signal.length)
termination_by signal.length
decreasing_by
  all_goals
    simp only [evens, odds, List.length_map, List.length_range]
    omega

/-- EmbedNote: `zero_pad` from `src/dsp/dft.py`: `signal + [0] * (count - len(signal))`
(`ℕ` subtraction matches Python, where a negative repeat count gives `[]`). -/
def zeroPad (signal : List ℂ) (count : ℕ) : List ℂ :=
  signal ++ List.replicate (count - signal.length) 0

/-- EmbedNote: `fft(signal, count=None)` from `src/dsp/dft.py`: resolve the default
count, zero pad, crop and run `cooley_tukey`. -/
noncomputable def fft (signal : List ℂ) (countOpt : Option ℕ) : List ℂ :=
  cooleyTukey ((zeroPad signal (countOpt.getD signal.length)).take (countOpt.getD signal.length))

/-- EmbedNote: `dft(signal)` from `src/dsp/dft.py`: the reference quadratic
transform `X[k] = sum over enumerate(signal) of x * exp(-2*pi*i*(k/count)*n)`. -/
noncomputable def dft (signal : List ℂ) : List ℂ :=
  (List.range signal.length).map
    (fun (k : ℕ) => (signal.enum.map
      (fun nx => nx.2 *
        Complex.exp (-(2 * (Real.pi : ℂ) * Complex.I) * ((k : ℂ) / (signal.length : ℂ)) *
          (nx.1 : ℂ)))).sum)

/-- EmbedNote: `_multiply` from `src/dsp/dft.py`: elementwise product via `zip`
(truncates to the shorter list, as `zip` does in Python). -/
def multiply (factorA factorB : List ℂ) : List ℂ :=
  List.zipWith (· * ·) factorA factorB

/-- EmbedNote: the number of elements of the Python `range(0, stop, step)` when `stop`
may be clamped at zero: `ceil(stop / step)`. -/
def pyRangeLen (stop step : ℕ) : ℕ :=
  (stop + step - 1) / step

/-- EmbedNote: `stft(signal, window, overlap, dft_count)` from `src/dsp/dft.py`:
one FFT of `window * signal[i:i+count]` per start index
`i in range(0, len(signal) - count, count - overlap)`.  The Python assert
`overlap < count` is a precondition of every claim about `stft`. -/
noncomputable def stft (signal window : List ℂ) (overlap : ℕ) (dftCount : Option ℕ) :
    List (List ℂ) :=
  (List.range (pyRangeLen (signal.length - window.length) (window.length - overlap))).map
    (fun k =>
      fft (multiply ((signal.drop (k * (window.length - overlap))).take window.length) window)
        dftCount)

/-- EmbedNote: `magnitude` from `src/dsp/dft.py`. -/
noncomputable def magnitude (dftOutput : List ℂ) : List ℝ :=
  dftOutput.map (fun z => Complex.abs z)

/-- EmbedNote: `frequency_bin_centers(count, sampling_frequency)` from `src/dsp/dft.py`. -/
noncomputable def frequencyBinCenters (count : ℕ) (samplingFrequency : ℝ) : List ℝ :=
  (List.range count).map (fun (k : ℕ) => (k : ℝ) * (samplingFrequency / (count : ℝ)))

/-- EmbedNote: `time_bin_centers(count, segment_count, overlap, sampling_frequency)`
from `src/dsp/dft.py` (integer arithmetic lifted exactly to `ℝ`). -/
noncomputable def timeBinCenters (count segmentCount overlap : ℕ)
    (samplingFrequency : ℝ) : List ℝ :=
  (List.range count).map
    (fun (k : ℕ) => ((k : ℝ) * ((segmentCount : ℝ) - (overlap : ℝ)) + (segmentCount : ℝ) / 2) *
      (1 / samplingFrequency))

/-- Value of the sum defining one DFT output entry, with an explicit exponent
denominator `count`. -/
noncomputable def dftSum (signal : List ℂ) (count k : ℕ) : ℂ :=
  ∑ n ∈ Finset.range signal.length,
    signal.getD n 0 *
      Complex.exp (-(2 * (Real.pi : ℂ) * Complex.I) * ((k : ℂ) / (count : ℂ)) * (n : ℂ))

/-- EmbedNote: the key `(point[0], point[1])` comparison used by
`sorted(zip(times, frequencies), key=lambda point: (point[0], point[1]))`. -/
def pointLe (p q : ℤ × ℤ) : Prop :=
  p.1 < q.1 ∨ (p.1 = q.1 ∧ p.2 ≤ q.2)

instance pointLe.instDecidable (p q : ℤ × ℤ) : Decidable (pointLe p q) := by
  unfold pointLe
  infer_instance

/-- EmbedNote: `sorted(zip(times, frequencies), key=lambda point: (point[0], point[1]))`. -/
def sortPoints (l : List (ℤ × ℤ)) : List (ℤ × ℤ) :=
  l.mergeSort (fun p q => decide (pointLe p q))

/-- EmbedNote: the membership test of `find_points_in_target_zone`:
`min_time <= point[0] <= max_time and abs(anchor[1] - point[1]) <= max_frequency_offset`. -/
def inTargetZone (anchor : ℤ × ℤ) (timeOffsets : ℤ × ℤ) (maxFrequencyOffset : ℤ)
    (point : ℤ × ℤ) : Bool :=
  decide (anchor.1 + timeOffsets.1 ≤ point.1 ∧ point.1 ≤ anchor.1 + timeOffsets.2 ∧
    |anchor.2 - point.2| ≤ maxFrequencyOffset)

/-- EmbedNote: the scan loop of `find_points_in_target_zone`; the second argument is
`len(target_zone)` so far; the loop breaks right after an append makes the zone
reach `size` members. -/
def zoneLoop (anchor : ℤ × ℤ) (timeOffsets : ℤ × ℤ) (maxFrequencyOffset : ℤ) (size : ℕ) :
    List (ℤ × ℤ) → ℕ → List (ℤ × ℤ)
  | [], _ => []
  | p :: rest, n =>
    if inTargetZone anchor timeOffsets maxFrequencyOffset p then
      if size ≤ n + 1 then [p]
      else p :: zoneLoop anchor timeOffsets maxFrequencyOffset size rest (n + 1)
    else zoneLoop anchor timeOffsets maxFrequencyOffset size rest n

/-- EmbedNote: `find_points_in_target_zone(anchor, points, time_offsets,
max_frequency_offset, size)` from `src/audiodetective/audiofingerprint/fingerprint.py`. -/
def findPointsInTargetZone (anchor : ℤ × ℤ) (points : List (ℤ × ℤ)) (timeOffsets : ℤ × ℤ)
    (maxFrequencyOffset : ℤ) (size : ℕ) : List (ℤ × ℤ) :=
  zoneLoop anchor timeOffsets maxFrequencyOffset size points 0

/-- EmbedNote: `_fingerprint_descriptor(time, frequency, anchor_frequency, anchor_time)`.
The Python code formats the three integers as the string
`"anchor_frequency,frequency,delta_time"`; that formatting is injective on integer
triples, so the triple is a faithful model of the descriptor key. -/
def fingerprintDescriptor (time frequency anchorFrequency anchorTime : ℤ) : ℤ × ℤ × ℤ :=
  (anchorFrequency, frequency, time - anchorTime)

/-- EmbedNote: `fingerprints[descriptor].add(anchor_time)` on a `defaultdict(set)`;
the dict is modelled as a total function to `Finset ℤ` (a key is present in the
Python dict exactly when its time set is nonempty). -/
def addTime (fp : ℤ × ℤ × ℤ → Finset ℤ) (d : ℤ × ℤ × ℤ) (t : ℤ) : ℤ × ℤ × ℤ → Finset ℤ :=
  fun d' => if d' = d then insert t (fp d) else fp d'

/-- EmbedNote: the body of the `for anchor in points` loop of
`_fingerprint_from_points`. -/
def addAnchor (timeOffsets : ℤ × ℤ) (maxFrequencyOffset : ℤ) (size : ℕ)
    (points : List (ℤ × ℤ)) (fp : ℤ × ℤ × ℤ → Finset ℤ) (anchor : ℤ × ℤ) :
    ℤ × ℤ × ℤ → Finset ℤ :=
  (findPointsInTargetZone anchor points timeOffsets maxFrequencyOffset size).foldl
    (fun fp p => addTime fp (fingerprintDescriptor p.1 p.2 anchor.2 anchor.1) anchor.1) fp

/-- EmbedNote: `_fingerprint_from_points(times, frequencies, target_zone_time_offsets,
target_zone_frequency_offset, target_zone_size)`. -/
def fingerprintFromPoints (times frequencies : List ℤ) (timeOffsets : ℤ × ℤ)
    (maxFrequencyOffset : ℤ) (size : ℕ) : ℤ × ℤ × ℤ → Finset ℤ :=
  (sortPoints (times.zip frequencies)).foldl
    (addAnchor timeOffsets maxFrequencyOffset size (sortPoints (times.zip frequencies)))
    (fun _ => ∅)

/-- EmbedNote: a fingerprint dictionary as consumed by `match`: a finite mapping from
descriptors to sets of times, modelled as an association list; the claims add the
Python-dict invariant that keys are pairwise distinct. -/
abbrev Fingerprints (α : Type) := List (α × Finset ℤ)

/-- Keys of a fingerprint dictionary. -/
def fpKeys {α : Type} (fp : Fingerprints α) : List α :=
  fp.map Prod.fst

/-- EmbedNote: the Python test `descriptor in those` together with `those[descriptor]`. -/
def fpLookup {α : Type} [DecidableEq α] (d : α) : Fingerprints α → Option (Finset ℤ)
  | [] => none
  | e :: rest => if e.1 = d then some e.2 else fpLookup d rest

/-- EmbedNote: the nested loops of `match` collecting `this_time - that_time` for every
descriptor of `these` present in `those` and every pair of times; Python's list
only differs from this multiset by iteration order, which the histogram ignores. -/
def deltaTimes {α : Type} [DecidableEq α] (these those : Fingerprints α) : Multiset ℤ :=
  (these.map (fun e =>
    match fpLookup e.1 those with
    | some t => (e.2 ×ˢ t).val.map (fun p => p.1 - p.2)
    | none => 0)).sum

/-- Smallest element of a nonempty multiset (head of its ascending sort). -/
def multisetLo (s : Multiset ℤ) : ℤ :=
  (s.sort (· ≤ ·)).headD 0

/-- Largest element of a nonempty multiset (last of its ascending sort). -/
def multisetHi (s : Multiset ℤ) : ℤ :=
  (s.sort (· ≤ ·)).getLastD 0

/-- EmbedNote: `np.histogram(delta_times, range(min, max + 2, 1))`: one bin per integer
from `lo` for `len` consecutive values; the bin for `lo + i` counts occurrences. -/
def histogramCounts (deltas : Multiset ℤ) (lo : ℤ) (len : ℕ) : List ℕ :=
  (List.range len).map (fun (i : ℕ) => deltas.count (lo + (i : ℤ)))

/-- Zero-padded indexing into a histogram, as scipy's `mode='constant', cval=0`. -/
def getPad (h : List ℕ) (i : ℤ) : ℕ :=
  if i < 0 then 0 else h.getD i.toNat 0

/-- EmbedNote: `scipy.ndimage.filters.generic_filter(histogram, sum, size, mode='constant',
cval=0)`: the sliding window of `size` cells centred with origin 0, i.e.
`out[j] = sum of h[j - size/2 + o] for o in range(size)` with zeros outside. -/
def slidingSum (h : List ℕ) (size : ℕ) : List ℕ :=
  (List.range h.length).map
    (fun (j : ℕ) => ((List.range size).map
      (fun (o : ℕ) => getPad h ((j : ℤ) + (o : ℤ) - ((size / 2 : ℕ) : ℤ)))).sum)

/-- EmbedNote: Python `max` over a (nonempty) list of nonnegative counts. -/
def maxList (l : List ℕ) : ℕ :=
  l.foldr max 0

/-- EmbedNote: `match(these, those, parameters)` from `src/audiofingerprint/match.py`
(`matchScore` because `match` is reserved in Lean): collect the time deltas,
return 0 if there are none, otherwise histogram them over `[min, max]`, smooth
with a sliding sum of width `filterSize`, and return the maximum. -/
def matchScore {α : Type} [DecidableEq α] (these those : Fingerprints α)
    (filterSize : ℕ) : ℕ :=
  if deltaTimes these those = 0 then 0
  else
    maxList (slidingSum
      (histogramCounts (deltaTimes these those) (multisetLo (deltaTimes these those))
        ((multisetHi (deltaTimes these those) - multisetLo (deltaTimes these those) + 1).toNat))
      filterSize)

/-- EmbedNote: `symmetric_cosine(coefficients, count)` from `windows.py`
(`count - 1` as exact real subtraction; Python raises ZeroDivisionError for
`count = 1`, which no claim exercises). -/
noncomputable def symmetricCosine (coefficients : List ℝ) (count : ℕ) : List ℝ :=
  (List.range count).map
    (fun (n : ℕ) => ((coefficients.enum).map
      (fun kc => kc.2 *
        Real.cos ((2 * Real.pi * (kc.1 : ℝ) * (n : ℝ)) / ((count : ℝ) - 1)))).sum)

/-- EmbedNote: `periodic_cosine(coefficients, count)` from `windows.py`. -/
noncomputable def periodicCosine (coefficients : List ℝ) (count : ℕ) : List ℝ :=
  (symmetricCosine coefficients (count + 1)).dropLast

/-- EmbedNote: `cosine(coefficients, count)` from `windows.py`. -/
noncomputable def cosine (coefficients : List ℝ) (count : ℕ) : List ℝ :=
  if count % 2 = 0 then periodicCosine coefficients count
  else symmetricCosine coefficients count

/-- EmbedNote: `hamming(count)` from `windows.py`. -/
noncomputable def hamming (count : ℕ) : List ℝ :=
  cosine [0.54, -0.46] count

/-- EmbedNote: the loop body of `fir`: the sinc coefficient
`sin(pi * cutoff * sample) / (pi * sample)` at `sample = i - order / 2`. -/
noncomputable def firCoef (cutoffFrequency : ℝ) (half i : ℕ) : ℝ :=
  Real.sin (Real.pi * cutoffFrequency * ((i : ℝ) - (half : ℝ))) /
    (Real.pi * ((i : ℝ) - (half : ℝ)))

/-- EmbedNote: `fir(count, cutoff_frequency)` from `windows.py`.  The asserts
(`count` odd, `0 < cutoff_frequency < 1`) are modelled as a `none` result.  The
loop writes `window[i]` and `window[-(i+1)]` for `i < order // 2` and leaves
`cutoff_frequency` elsewhere, which is the indexwise description below. -/
noncomputable def fir (count : ℕ) (cutoffFrequency : ℝ) : Option (List ℝ) :=
  if count % 2 = 1 ∧ 0 < cutoffFrequency ∧ cutoffFrequency < 1 then
    some ((List.range count).map (fun (j : ℕ) =>
      if j < (count - 1) / 2 then firCoef cutoffFrequency ((count - 1) / 2) j
      else if count - 1 - j < (count - 1) / 2 then
        firCoef cutoffFrequency ((count - 1) / 2) (count - 1 - j)
      else cutoffFrequency))
  else none

/-- EmbedNote: `convolve(signal, kernel)` from `src/dsp/decimation.py`: zero pad by
`len(kernel) // 2` on both sides, flip the kernel, one dot product per output. -/
noncomputable def convolve (signal kernel : List ℝ) : List ℝ :=
  (List.range signal.length).map (fun (n : ℕ) =>
    (List.zipWith (· * ·)
      ((((List.replicate (kernel.length / 2) (0 : ℝ)) ++ signal ++
        (List.replicate (kernel.length / 2) (0 : ℝ))).drop n).take kernel.length)
      kernel.reverse).sum)

/-- EmbedNote: `downsample(signal, factor)` from `src/dsp/decimation.py`:
`signal[::factor]`, the elements at indices `0, factor, 2*factor, ...`. -/
noncomputable def downsample (signal : List ℝ) (factor : ℕ) : List ℝ :=
  (List.range (pyRangeLen signal.length factor)).map
    (fun (k : ℕ) => signal.getD (k * factor) 0)

/-- EmbedNote: `anti_aliasing_window(cutoff_frequency, filter_order)` from
`src/dsp/decimation.py`. -/
noncomputable def antiAliasingWindow (cutoffFrequency : ℝ) (filterOrder : ℕ) :
    Option (List ℝ) :=
  (fir (filterOrder + 1) cutoffFrequency).map
    (fun firW => List.zipWith (· * ·) firW (hamming firW.length))

/-- EmbedNote: `anti_aliasing_filter(signal, cutoff_frequency, filter_order)` from
`src/dsp/decimation.py`. -/
noncomputable def antiAliasingFilter (signal : List ℝ) (cutoffFrequency : ℝ)
    (filterOrder : ℕ) : Option (List ℝ) :=
  (antiAliasingWindow cutoffFrequency filterOrder).map (fun w => convolve signal w)

/-- EmbedNote: `decimate(signal, downsampling_factor, filter_order=30)` from
`src/dsp/decimation.py`: anti-alias filter with cutoff `1 / downsampling_factor`,
then downsample. -/
noncomputable def decimate (signal : List ℝ) (downsamplingFactor filterOrder : ℕ) :
    Option (List ℝ) :=
  (antiAliasingFilter signal (1 / (downsamplingFactor : ℝ)) filterOrder).map
    (fun filtered => downsample filtered downsamplingFactor)

/-- EmbedNote: `_square(data)` from `src/dsp/spectogram.py`. -/
noncomputable def squareList (data : List ℝ) : List ℝ :=
  data.map (fun x => x ^ 2)

/-- EmbedNote: the power-spectral-density scale
`1.0 / (sum(_square(window)) * sampling_frequency)` of `real_spectogram`. -/
noncomputable def windowScale (window : List ℝ) (samplingFrequency : ℝ) : ℝ :=
  1 / ((squareList window).sum * samplingFrequency)

/-- EmbedNote: one row of the spectogram comprehension of `real_spectogram`:
`[m * scale * (1 if i == 0 or i == real_dft_count - 1 else 2) for i, m in
enumerate(_square(magnitude(dft[:real_dft_count])))]`. -/
noncomputable def psdRow (scale : ℝ) (realDftCount : ℕ) (dftRow : List ℂ) : List ℝ :=
  ((squareList (magnitude (dftRow.take realDftCount))).enum).map
    (fun (im : ℕ × ℝ) => im.2 * scale * (if im.1 = 0 ∨ im.1 = realDftCount - 1 then 1 else 2))

/-- EmbedNote: `real_spectogram(signal, sampling_frequency, window, overlap, dft_count)`
from `src/dsp/spectogram.py` (real inputs are promoted to complex for the STFT,
as Python's arithmetic does). -/
noncomputable def realSpectogram (signal : List ℝ) (samplingFrequency : ℝ)
    (window : List ℝ) (overlap : ℕ) (dftCountOpt : Option ℕ) :
    List (List ℝ) × List ℝ × List ℝ :=
  ((stft (signal.map Complex.ofReal) (window.map Complex.ofReal) overlap
      (some (dftCountOpt.getD window.length))).map
    (psdRow (windowScale window samplingFrequency) (dftCountOpt.getD window.length / 2 + 1)),
   timeBinCenters
     (stft (signal.map Complex.ofReal) (window.map Complex.ofReal) overlap
       (some (dftCountOpt.getD window.length))).length
     window.length overlap samplingFrequency,
   (frequencyBinCenters (dftCountOpt.getD window.length) samplingFrequency).take
     (dftCountOpt.getD window.length / 2 + 1))

/-- EmbedNote: `_spectogram_from_signal(signal, sampling_frequency, window_length,
overlap)` from `src/audiodetective/audiofingerprint/fingerprint.py`: a Hamming
window, `real_spectogram`, and the numpy slices `[:, 1:-2]` and `[1:-2]` that
remove the DC and Nyquist bins (`[1:-2]` keeps indices `1 .. len-3`). -/
noncomputable def spectogramFromSignal (signal : List ℝ) (samplingFrequency : ℝ)
    (windowLength overlap : ℕ) : List (List ℝ) × List ℝ × List ℝ :=
  ((realSpectogram signal samplingFrequency (hamming windowLength) overlap none).1.map
      (fun row => (row.drop 1).take (row.length - 3)),
   (realSpectogram signal samplingFrequency (hamming windowLength) overlap none).2.1,
   (((realSpectogram signal samplingFrequency (hamming windowLength) overlap none).2.2).drop 1).take
     ((realSpectogram signal samplingFrequency (hamming windowLength) overlap none).2.2.length - 3))

theorem evens_length (l : List ℂ) : (evens l).length = (l.length + 1) / 2 := by
  simp [evens]

theorem odds_length (l : List ℂ) : (odds l).length = l.length / 2 := by
  simp [odds]

theorem evens_getElem? (l : List ℂ) (m : ℕ) : (evens l)[m]? = l[2 * m]? := by
  unfold evens
  rw [List.getElem?_map]
  by_cases hm : m < (l.length + 1) / 2
  · rw [List.getElem?_range hm, Option.map_some']
    have h2 : 2 * m < l.length := by omega
    rw [List.getD_eq_getElem?_getD, List.getElem?_eq_getElem h2]
    rfl
  · rw [List.getElem?_eq_none (by simpa using hm), List.getElem?_eq_none (by omega)]
    rfl

theorem odds_getElem? (l : List ℂ) (m : ℕ) : (odds l)[m]? = l[2 * m + 1]? := by
  unfold odds
  rw [List.getElem?_map]
  by_cases hm : m < l.length / 2
  · rw [List.getElem?_range hm, Option.map_some']
    have h2 : 2 * m + 1 < l.length := by omega
    rw [List.getD_eq_getElem?_getD, List.getElem?_eq_getElem h2]
    rfl
  · rw [List.getElem?_eq_none (by simpa using hm), List.getElem?_eq_none (by omega)]
    rfl

theorem twiddle_length (count : ℕ) : (twiddle count).length = count / 2 := by
  simp [twiddle]

theorem twiddle_getElem? (count k : ℕ) (hk : k < count / 2) :
    (twiddle count)[k]? = some (twiddleVal count k) := by
  unfold twiddle
  rw [List.getElem?_map, List.getElem?_range hk, Option.map_some']

theorem zipWith3_getElem? {α β γ δ : Type*} (f : α → β → γ → δ) :
    ∀ (as : List α) (bs : List β) (cs : List γ) (i : ℕ),
      (List.zipWith3 f as bs cs)[i]? =
        as[i]?.bind (fun a => bs[i]?.bind (fun b => cs[i]?.map (fun c => f a b c)))
  | [], bs, cs, i => by simp [List.zipWith3]
  | a :: as, [], cs, i => by
    cases h : (a :: as)[i]? <;> simp [List.zipWith3, h]
  | a :: as, b :: bs, [], i => by
    cases h : (a :: as)[i]? <;> cases h2 : (b :: bs)[i]? <;> simp [List.zipWith3, h, h2]
  | a :: as, b :: bs, c :: cs, i => by
    match i with
    | 0 => simp [List.zipWith3]
    | i + 1 =>
      simp only [List.zipWith3, List.getElem?_cons_succ]
      exact zipWith3_getElem? f as bs cs i

theorem zipWith3_length {α β γ δ : Type*} (f : α → β → γ → δ) :
    ∀ (as : List α) (bs : List β) (cs : List γ),
      (List.zipWith3 f as bs cs).length = min (min as.length bs.length) cs.length
  | [], bs, cs => by simp [List.zipWith3]
  | a :: as, [], cs => by simp [List.zipWith3]
  | a :: as, b :: bs, [] => by simp [List.zipWith3]
  | a :: as, b :: bs, c :: cs => by
    simp only [List.zipWith3, List.length_cons, zipWith3_length f as bs cs]
    omega

theorem sum_map_enumFrom (g : ℕ × ℂ → ℂ) :
    ∀ (s : List ℂ) (i : ℕ),
      ((s.enumFrom i).map g).sum = ∑ n ∈ Finset.range s.length, g (i + n, s.getD n 0)
  | [], i => by simp
  | a :: t, i => by
    rw [show (a :: t).enumFrom i = (i, a) :: t.enumFrom (i + 1) from rfl]
    simp only [List.map_cons, List.sum_cons, List.length_cons]
    rw [sum_map_enumFrom g t (i + 1), Finset.sum_range_succ']
    simp only [List.getD_cons_succ, List.getD_cons_zero, Nat.add_zero]
    rw [add_comm]
    congr 1
    apply Finset.sum_congr rfl
    intro n _
    congr 2
    omega

theorem dft_length (s : List ℂ) : (dft s).length = s.length := by
  simp [dft]

theorem dft_getElem? (s : List ℂ) (k : ℕ) (hk : k < s.length) :
    (dft s)[k]? = some (dftSum s s.length k) := by
  unfold dft
  rw [List.getElem?_map, List.getElem?_range hk, Option.map_some']
  congr 1
  rw [show s.enum = s.enumFrom 0 from rfl,
    sum_map_enumFrom
      (fun nx =>
        nx.2 * Complex.exp (-(2 * (Real.pi : ℂ) * Complex.I) * ((k : ℂ) / (s.length : ℂ)) *
          (nx.1 : ℂ))) s 0]
  unfold dftSum
  apply Finset.sum_congr rfl
  intro n _
  simp

theorem cooleyTukey_length : ∀ (j : ℕ) (s : List ℂ), s.length = 2 ^ j →
    (cooleyTukey s).length = s.length := by
  intro j
  induction j with
  | zero =>
    intro s hs
    rw [cooleyTukey, if_pos (by omega)]
  | succ j ih =>
    intro s hs
    have hpos : 0 < 2 ^ j := pow_pos (by norm_num) j
    have hlen2 : s.length = 2 * 2 ^ j := by rw [hs, pow_succ]; ring
    have hev : (evens s).length = 2 ^ j := by rw [evens_length, hlen2]; omega
    have hod : (odds s).length = 2 ^ j := by rw [odds_length, hlen2]; omega
    rw [cooleyTukey, if_neg (by omega)]
    rw [List.length_append, zipWith3_length, zipWith3_length, ih (evens s) hev,
      ih (odds s) hod, hev, hod, twiddle_length]
    omega

theorem cexp_shift (M k n : ℕ) (hM : 0 < M) :
    Complex.exp (-(2 * (Real.pi : ℂ) * Complex.I) * (((M + k : ℕ) : ℂ) / (M : ℂ)) * (n : ℂ)) =
      Complex.exp (-(2 * (Real.pi : ℂ) * Complex.I) * ((k : ℂ) / (M : ℂ)) * (n : ℂ)) := by
  have hM0 : (M : ℂ) ≠ 0 := Nat.cast_ne_zero.mpr hM.ne'
  have key : -(2 * (Real.pi : ℂ) * Complex.I) * (((M + k : ℕ) : ℂ) / (M : ℂ)) * (n : ℂ) =
      -(2 * (Real.pi : ℂ) * Complex.I) * ((k : ℂ) / (M : ℂ)) * (n : ℂ) +
        ((-(n : ℤ) : ℤ) : ℂ) * (2 * (Real.pi : ℂ) * Complex.I) := by
    push_cast
    field_simp
    ring
  rw [key, Complex.exp_add, Complex.exp_int_mul_two_pi_mul_I, mul_one]

theorem dftSum_shift (x : List ℂ) (M k : ℕ) (hM : 0 < M) :
    dftSum x M (M + k) = dftSum x M k := by
  unfold dftSum
  apply Finset.sum_congr rfl
  intro n _
  rw [cexp_shift M k n hM]

theorem twiddleVal_second_half (M i : ℕ) (hM : 0 < M) :
    twiddleVal (2 * M) (M + i) = -twiddleVal (2 * M) i := by
  have hM0 : (M : ℂ) ≠ 0 := Nat.cast_ne_zero.mpr hM.ne'
  unfold twiddleVal
  have key : -(2 * (Real.pi : ℂ) * Complex.I) * (((M + i : ℕ) : ℂ) / ((2 * M : ℕ) : ℂ)) =
      -(2 * (Real.pi : ℂ) * Complex.I) * (((i : ℕ) : ℂ) / ((2 * M : ℕ) : ℂ)) +
        -((Real.pi : ℂ) * Complex.I) := by
    push_cast
    field_simp
    ring
  rw [key, Complex.exp_add]
  have hneg : Complex.exp (-((Real.pi : ℂ) * Complex.I)) = -1 := by
    rw [Complex.exp_neg, Complex.exp_pi_mul_I]
    norm_num
  rw [hneg, mul_neg_one]

theorem sum_range_even_odd (f : ℕ → ℂ) : ∀ M : ℕ,
    ∑ n ∈ Finset.range (2 * M), f n =
      ∑ m ∈ Finset.range M, f (2 * m) + ∑ m ∈ Finset.range M, f (2 * m + 1)
  | 0 => by simp
  | M + 1 => by
    have h : 2 * (M + 1) = 2 * M + 1 + 1 := by ring
    rw [h, Finset.sum_range_succ, Finset.sum_range_succ,
      Finset.sum_range_succ (fun m => f (2 * m)) M,
      Finset.sum_range_succ (fun m => f (2 * m + 1)) M, sum_range_even_odd f M]
    ring

theorem mul_exp_split (x b c : ℂ) {a : ℂ} (h : a = b + c) :
    x * Complex.exp a = Complex.exp b * (x * Complex.exp c) := by
  subst h
  rw [Complex.exp_add]
  ring

theorem dftSum_split (s : List ℂ) (M : ℕ) (hM : 0 < M) (hlen : s.length = 2 * M) (k : ℕ) :
    dftSum s s.length k =
      dftSum (evens s) M k + twiddleVal s.length k * dftSum (odds s) M k := by
  have hM0 : (M : ℂ) ≠ 0 := Nat.cast_ne_zero.mpr hM.ne'
  have h2M0 : ((2 * M : ℕ) : ℂ) ≠ 0 := by
    push_cast
    simp [hM0]
  unfold dftSum twiddleVal
  rw [evens_length, odds_length, hlen]
  rw [show (2 * M + 1) / 2 = M by omega, show 2 * M / 2 = M by omega]
  rw [sum_range_even_odd
    (fun n => s.getD n 0 *
      Complex.exp (-(2 * (Real.pi : ℂ) * Complex.I) * ((k : ℂ) / ((2 * M : ℕ) : ℂ)) * (n : ℂ)))
    M]
  congr 1
  · apply Finset.sum_congr rfl
    intro m _
    have hg : (evens s).getD m 0 = s.getD (2 * m) 0 := by
      rw [List.getD_eq_getElem?_getD, List.getD_eq_getElem?_getD, evens_getElem?]
    rw [hg]
    congr 2
    push_cast
    field_simp
    ring
  · rw [Finset.mul_sum]
    apply Finset.sum_congr rfl
    intro m _
    have hg : (odds s).getD m 0 = s.getD (2 * m + 1) 0 := by
      rw [List.getD_eq_getElem?_getD, List.getD_eq_getElem?_getD, odds_getElem?]
    rw [hg]
    apply mul_exp_split
    push_cast
    field_simp
    ring

theorem cooleyTukey_eq_dft : ∀ (j : ℕ) (s : List ℂ), s.length = 2 ^ j →
    cooleyTukey s = dft s := by
  intro j
  induction j with
  | zero =>
    intro s hs
    obtain ⟨x, rfl⟩ := List.length_eq_one.mp (by simpa using hs)
    rw [cooleyTukey, if_pos (by simp)]
    apply List.ext_getElem?
    intro n
    match n with
    | 0 =>
      rw [dft_getElem? [x] 0 (by simp)]
      simp only [List.getElem?_cons_zero]
      congr 1
      unfold dftSum
      simp
    | n + 1 =>
      rw [List.getElem?_eq_none (by simp), List.getElem?_eq_none (by rw [dft_length]; simp)]
  | succ j ih =>
    intro s hs
    have hpos : 0 < 2 ^ j := pow_pos (by norm_num) j
    have hlen2 : s.length = 2 * 2 ^ j := by rw [hs, pow_succ]; ring
    have hev : (evens s).length = 2 ^ j := by rw [evens_length, hlen2]; omega
    have hod : (odds s).length = 2 ^ j := by rw [odds_length, hlen2]; omega
    have hE := ih (evens s) hev
    have hO := ih (odds s) hod
    have hdE : (dft (evens s)).length = 2 ^ j := by rw [dft_length, hev]
    have hdO : (dft (odds s)).length = 2 ^ j := by rw [dft_length, hod]
    have htw : (twiddle s.length).length = 2 ^ j := by rw [twiddle_length, hlen2]; omega
    have hz1 : (List.zipWith3 (fun e o t => e + t * o) (dft (evens s)) (dft (odds s))
        (twiddle s.length)).length = 2 ^ j := by
      rw [zipWith3_length, hdE, hdO, htw]
      omega
    have hz2 : (List.zipWith3 (fun e o t => e - t * o) (dft (evens s)) (dft (odds s))
        (twiddle s.length)).length = 2 ^ j := by
      rw [zipWith3_length, hdE, hdO, htw]
      omega
    rw [cooleyTukey, if_neg (by omega), hE, hO]
    apply List.ext_getElem?
    intro n
    by_cases hn1 : n < 2 ^ j
    · rw [List.getElem?_append_left (by rw [hz1]; exact hn1)]
      rw [zipWith3_getElem?, dft_getElem? (evens s) n (by omega),
        dft_getElem? (odds s) n (by omega),
        twiddle_getElem? s.length n (by omega)]
      simp only [Option.some_bind, Option.map_some']
      rw [dft_getElem? s n (by omega)]
      rw [dftSum_split s (2 ^ j) hpos hlen2 n]
      rw [hev, hod]
    · by_cases hn2 : n < 2 * 2 ^ j
      · have hilt : n - 2 ^ j < 2 ^ j := by omega
        rw [List.getElem?_append_right (by rw [hz1]; omega)]
        rw [hz1]
        rw [zipWith3_getElem?, dft_getElem? (evens s) (n - 2 ^ j) (by omega),
          dft_getElem? (odds s) (n - 2 ^ j) (by omega),
          twiddle_getElem? s.length (n - 2 ^ j) (by omega)]
        simp only [Option.some_bind, Option.map_some']
        rw [dft_getElem? s n (by omega)]
        rw [hev, hod]
        have hn' : n = 2 ^ j + (n - 2 ^ j) := by omega
        conv_rhs => rw [hn']
        rw [dftSum_split s (2 ^ j) hpos hlen2 (2 ^ j + (n - 2 ^ j))]
        rw [dftSum_shift (evens s) (2 ^ j) (n - 2 ^ j) hpos,
          dftSum_shift (odds s) (2 ^ j) (n - 2 ^ j) hpos]
        rw [show s.length = 2 * 2 ^ j from hlen2,
          twiddleVal_second_half (2 ^ j) (n - 2 ^ j) hpos]
        congr 1
        ring
      · rw [List.getElem?_eq_none (by rw [List.length_append, hz1, hz2]; omega),
          List.getElem?_eq_none (by rw [dft_length]; omega)]

/-- C1: for every signal whose length is a power of two, `fft(signal)` with
`count` omitted equals `dft(signal)` elementwise, over exact complex
arithmetic. -/
theorem fft_matches_dft (signal : List ℂ) (j : ℕ) (h : signal.length = 2 ^ j) :
    fft signal none = dft signal := by
  unfold fft
  rw [show (none : Option ℕ).getD signal.length = signal.length from rfl]
  rw [show zeroPad signal signal.length = signal by simp [zeroPad], List.take_length]
  exact cooleyTukey_eq_dft j signal h

/-- Witness for C1 at the concrete power-of-two-length signal `[1, i]`. -/
theorem fft_matches_dft_witness :
    ([(1 : ℂ), Complex.I].length = 2 ^ 1) ∧
      fft [(1 : ℂ), Complex.I] none = dft [(1 : ℂ), Complex.I] :=
  ⟨rfl, fft_matches_dft [(1 : ℂ), Complex.I] 1 rfl⟩

/-! Lemmas for claim C2: which frames `stft` produces. -/

theorem lt_pyRangeLen_iff (stop step k : ℕ) (hstep : 0 < step) :
    k < pyRangeLen stop step ↔ k * step < stop := by
  unfold pyRangeLen
  constructor
  · intro hk
    have h2 : (k + 1) * step ≤ stop + step - 1 := (Nat.le_div_iff_mul_le hstep).mp hk
    rw [add_mul, one_mul] at h2
    generalize hm : k * step = m at h2 ⊢
    omega
  · intro hk
    apply (Nat.le_div_iff_mul_le hstep).mpr
    rw [Nat.succ_mul]
    generalize hm : k * step = m at hk ⊢
    omega

theorem stft_length (signal window : List ℂ) (overlap : ℕ) (dftCount : Option ℕ) :
    (stft signal window overlap dftCount).length =
      pyRangeLen (signal.length - window.length) (window.length - overlap) := by
  simp [stft]

/-- C2 (amended): with `overlap < len(window)`, `stft` produces the frame starting
at `k * step` (with `step = len(window) - overlap`) exactly when strictly more
than `len(window)` samples remain past that start index, and each produced
spectrum is the FFT of the windowed frame.  (The claim's original "at least
`len(window)` samples remain" is refuted by `stft_drops_exact_fit_frame`.) -/
theorem stft_framing (signal window : List ℂ) (overlap : ℕ) (dftCount : Option ℕ)
    (h : overlap < window.length) :
    (∀ k : ℕ, k < (stft signal window overlap dftCount).length ↔
        k * (window.length - overlap) + window.length < signal.length) ∧
      ∀ k : ℕ, k * (window.length - overlap) + window.length < signal.length →
        (stft signal window overlap dftCount)[k]? =
          some (fft (multiply ((signal.drop (k * (window.length - overlap))).take window.length)
            window) dftCount) := by
  have hstep : 0 < window.length - overlap := by omega
  have hiff : ∀ k : ℕ, k < (stft signal window overlap dftCount).length ↔
      k * (window.length - overlap) + window.length < signal.length := by
    intro k
    rw [stft_length, lt_pyRangeLen_iff _ _ _ hstep]
    generalize k * (window.length - overlap) = m
    omega
  refine ⟨hiff, ?_⟩
  intro k hk
  have hk' : k < pyRangeLen (signal.length - window.length) (window.length - overlap) := by
    rw [← stft_length signal window overlap dftCount]
    exact (hiff k).mpr hk
  unfold stft
  rw [List.getElem?_map, List.getElem?_range hk', Option.map_some']

/-- C2 counterexample: a signal with exactly `len(window)` samples past start
index 0 yields no frame at all, although the claim as stated requires a frame
for every start index from which at least `len(window)` samples remain. -/
theorem stft_drops_exact_fit_frame :
    stft [(1 : ℂ), 1, 1, 1] [(1 : ℂ), 1, 1, 1] 0 none = [] ∧
      0 * ([(1 : ℂ), 1, 1, 1].length - 0) + [(1 : ℂ), 1, 1, 1].length ≤
        [(1 : ℂ), 1, 1, 1].length := by
  constructor
  · unfold stft pyRangeLen
    norm_num
  · norm_num

/-- Witness for the amended C2 at a concrete signal and window. -/
theorem stft_framing_witness :
    1 < [(1 : ℂ), 1].length ∧
      ((∀ k : ℕ, k < (stft [(1 : ℂ), 1, 1, 1, 1] [(1 : ℂ), 1] 1 none).length ↔
          k * ([(1 : ℂ), 1].length - 1) + [(1 : ℂ), 1].length <
            [(1 : ℂ), 1, 1, 1, 1].length) ∧
        ∀ k : ℕ, k * ([(1 : ℂ), 1].length - 1) + [(1 : ℂ), 1].length <
            [(1 : ℂ), 1, 1, 1, 1].length →
          (stft [(1 : ℂ), 1, 1, 1, 1] [(1 : ℂ), 1] 1 none)[k]? =
            some (fft (multiply (([(1 : ℂ), 1, 1, 1, 1].drop
              (k * ([(1 : ℂ), 1].length - 1))).take [(1 : ℂ), 1].length)
              [(1 : ℂ), 1]) none)) :=
  ⟨by norm_num, stft_framing [(1 : ℂ), 1, 1, 1, 1] [(1 : ℂ), 1] 1 none (by norm_num)⟩

/-! Lemmas for claims C3 and C4: target zones and fingerprint determinism. -/

theorem pointLe_trans (a b c : ℤ × ℤ) : pointLe a b → pointLe b c → pointLe a c := by
  unfold pointLe
  omega

theorem pointLe_total (a b : ℤ × ℤ) : pointLe a b ∨ pointLe b a := by
  unfold pointLe
  omega

theorem pointLe_antisymm (a b : ℤ × ℤ) : pointLe a b → pointLe b a → a = b := by
  intro h1 h2
  unfold pointLe at h1 h2
  rw [Prod.ext_iff]
  omega

theorem sortPoints_perm (l : List (ℤ × ℤ)) : (sortPoints l).Perm l :=
  List.mergeSort_perm l _

theorem sortPoints_sorted (l : List (ℤ × ℤ)) : List.Sorted pointLe (sortPoints l) := by
  have h := @List.sorted_mergeSort (ℤ × ℤ) (fun p q => decide (pointLe p q))
    (fun a b c h1 h2 => by
      simp only [decide_eq_true_eq] at h1 h2 ⊢
      exact pointLe_trans a b c h1 h2)
    (fun a b => by
      simp only [Bool.or_eq_true, decide_eq_true_eq]
      exact pointLe_total a b)
    l
  exact h.imp (fun hab => by simpa using hab)

theorem sortPoints_eq_of_perm {l1 l2 : List (ℤ × ℤ)} (h : l1.Perm l2) :
    sortPoints l1 = sortPoints l2 :=
  @List.eq_of_perm_of_sorted (ℤ × ℤ) pointLe ⟨pointLe_antisymm⟩ _ _
    ((sortPoints_perm l1).trans (h.trans (sortPoints_perm l2).symm))
    (sortPoints_sorted l1) (sortPoints_sorted l2)

theorem zoneLoop_eq (anchor : ℤ × ℤ) (timeOffsets : ℤ × ℤ) (maxFrequencyOffset : ℤ)
    (size : ℕ) :
    ∀ (l : List (ℤ × ℤ)) (n : ℕ), n < size →
      zoneLoop anchor timeOffsets maxFrequencyOffset size l n =
        (l.filter (inTargetZone anchor timeOffsets maxFrequencyOffset)).take (size - n)
  | [], n, hn => by simp [zoneLoop]
  | p :: rest, n, hn => by
    unfold zoneLoop
    cases hp : inTargetZone anchor timeOffsets maxFrequencyOffset p with
    | false =>
      simp only [Bool.false_eq_true, if_false]
      rw [List.filter_cons_of_neg (by simp [hp])]
      exact zoneLoop_eq anchor timeOffsets maxFrequencyOffset size rest n hn
    | true =>
      simp only [if_true]
      rw [List.filter_cons_of_pos (by simp [hp])]
      by_cases hs : size ≤ n + 1
      · rw [if_pos hs, show size - n = 1 by omega]
        rfl
      · rw [if_neg hs, show size - n = (size - (n + 1)) + 1 by omega, List.take_succ_cons,
          zoneLoop_eq anchor timeOffsets maxFrequencyOffset size rest (n + 1) (by omega)]

theorem addTime_mem (fp : ℤ × ℤ × ℤ → Finset ℤ) (d' : ℤ × ℤ × ℤ) (t' : ℤ)
    (d : ℤ × ℤ × ℤ) (t : ℤ) (h : t ∈ fp d) : t ∈ addTime fp d' t' d := by
  unfold addTime
  by_cases hd : d = d'
  · subst hd
    rw [if_pos rfl]
    exact Finset.mem_insert_of_mem h
  · rwa [if_neg hd]

theorem foldl_addTime_mem (anchor : ℤ × ℤ) :
    ∀ (zone : List (ℤ × ℤ)) (fp : ℤ × ℤ × ℤ → Finset ℤ) (d : ℤ × ℤ × ℤ) (t : ℤ),
      t ∈ fp d →
      t ∈ (zone.foldl
        (fun fp p => addTime fp (fingerprintDescriptor p.1 p.2 anchor.2 anchor.1) anchor.1)
        fp) d
  | [], fp, d, t, h => h
  | q :: rest, fp, d, t, h =>
    foldl_addTime_mem anchor rest _ d t (addTime_mem fp _ _ d t h)

theorem foldl_addTime_adds (anchor : ℤ × ℤ) :
    ∀ (zone : List (ℤ × ℤ)) (fp : ℤ × ℤ × ℤ → Finset ℤ) (p : ℤ × ℤ), p ∈ zone →
      anchor.1 ∈ (zone.foldl
        (fun fp q => addTime fp (fingerprintDescriptor q.1 q.2 anchor.2 anchor.1) anchor.1)
        fp) (fingerprintDescriptor p.1 p.2 anchor.2 anchor.1)
  | [], fp, p, hp => absurd hp (List.not_mem_nil p)
  | q :: rest, fp, p, hp => by
    rw [List.foldl_cons]
    rcases List.mem_cons.mp hp with h | h
    · subst h
      apply foldl_addTime_mem
      unfold addTime
      rw [if_pos rfl]
      exact Finset.mem_insert_self _ _
    · exact foldl_addTime_adds anchor rest _ p h

theorem addAnchor_mem (timeOffsets : ℤ × ℤ) (maxFrequencyOffset : ℤ) (size : ℕ)
    (points : List (ℤ × ℤ)) (fp : ℤ × ℤ × ℤ → Finset ℤ) (a : ℤ × ℤ) (d : ℤ × ℤ × ℤ)
    (t : ℤ) (h : t ∈ fp d) :
    t ∈ addAnchor timeOffsets maxFrequencyOffset size points fp a d :=
  foldl_addTime_mem a _ fp d t h

theorem fingerprintLoop_preserve (timeOffsets : ℤ × ℤ) (maxFrequencyOffset : ℤ) (size : ℕ)
    (points : List (ℤ × ℤ)) :
    ∀ (anchors : List (ℤ × ℤ)) (fp : ℤ × ℤ × ℤ → Finset ℤ) (d : ℤ × ℤ × ℤ) (t : ℤ),
      t ∈ fp d →
      t ∈ (anchors.foldl (addAnchor timeOffsets maxFrequencyOffset size points) fp) d
  | [], fp, d, t, h => h
  | a :: rest, fp, d, t, h =>
    fingerprintLoop_preserve timeOffsets maxFrequencyOffset size points rest _ d t
      (addAnchor_mem timeOffsets maxFrequencyOffset size points fp a d t h)

theorem fingerprintLoop_adds (timeOffsets : ℤ × ℤ) (maxFrequencyOffset : ℤ) (size : ℕ)
    (points : List (ℤ × ℤ)) :
    ∀ (anchors : List (ℤ × ℤ)) (fp : ℤ × ℤ × ℤ → Finset ℤ) (anchor : ℤ × ℤ),
      anchor ∈ anchors →
      ∀ p ∈ findPointsInTargetZone anchor points timeOffsets maxFrequencyOffset size,
        anchor.1 ∈ (anchors.foldl (addAnchor timeOffsets maxFrequencyOffset size points) fp)
          (fingerprintDescriptor p.1 p.2 anchor.2 anchor.1)
  | [], fp, anchor, hanch, p, hp => absurd hanch (List.not_mem_nil anchor)
  | a :: rest, fp, anchor, hanch, p, hp => by
    rw [List.foldl_cons]
    rcases List.mem_cons.mp hanch with h | h
    · subst h
      apply fingerprintLoop_preserve
      unfold addAnchor
      exact foldl_addTime_adds anchor _ fp p hp
    · exact fingerprintLoop_adds timeOffsets maxFrequencyOffset size points rest _ anchor h p hp

/-- C3: the target zone for an anchor is exactly the first `size` points, in
ascending `(time, frequency)` order, whose time lies in the anchor's offset
window and whose frequency is within `maxFrequencyOffset` of the anchor's; and
each target-zone point contributes `anchor.time` to the time set of descriptor
`(anchor.frequency, point.frequency, point.time - anchor.time)`. -/
theorem targetZone_spec (times frequencies : List ℤ) (timeOffsets : ℤ × ℤ)
    (maxFrequencyOffset : ℤ) (size : ℕ) (hsize : 0 < size) (anchor : ℤ × ℤ)
    (hanchor : anchor ∈ sortPoints (times.zip frequencies)) :
    findPointsInTargetZone anchor (sortPoints (times.zip frequencies)) timeOffsets
        maxFrequencyOffset size =
      ((sortPoints (times.zip frequencies)).filter
        (fun p => decide (anchor.1 + timeOffsets.1 ≤ p.1 ∧ p.1 ≤ anchor.1 + timeOffsets.2 ∧
          |p.2 - anchor.2| ≤ maxFrequencyOffset))).take size ∧
      ∀ p ∈ findPointsInTargetZone anchor (sortPoints (times.zip frequencies)) timeOffsets
          maxFrequencyOffset size,
        anchor.1 ∈ fingerprintFromPoints times frequencies timeOffsets maxFrequencyOffset size
          (anchor.2, p.2, p.1 - anchor.1) := by
  constructor
  · unfold findPointsInTargetZone
    rw [zoneLoop_eq anchor timeOffsets maxFrequencyOffset size _ 0 hsize, Nat.sub_zero]
    congr 1
    apply List.filter_congr
    intro p _
    unfold inTargetZone
    simp only [decide_eq_decide]
    rw [abs_sub_comm]
  · intro p hp
    unfold fingerprintFromPoints
    exact fingerprintLoop_adds timeOffsets maxFrequencyOffset size _ _ _ anchor hanchor p hp

/-- Witness for C3 at two concrete points, with the default zone geometry. -/
theorem targetZone_spec_witness :
    0 < 8 ∧ ((0 : ℤ), (0 : ℤ)) ∈ sortPoints (List.zip [0, 40] [0, 0]) ∧
      (findPointsInTargetZone ((0 : ℤ), (0 : ℤ)) (sortPoints (List.zip [0, 40] [0, 0]))
          ((32 : ℤ), (128 : ℤ)) 128 8 =
        ((sortPoints (List.zip [0, 40] [0, 0])).filter
          (fun p => decide ((0 : ℤ) + 32 ≤ p.1 ∧ p.1 ≤ (0 : ℤ) + 128 ∧
            |p.2 - (0 : ℤ)| ≤ 128))).take 8 ∧
        ∀ p ∈ findPointsInTargetZone ((0 : ℤ), (0 : ℤ))
            (sortPoints (List.zip [0, 40] [0, 0])) ((32 : ℤ), (128 : ℤ)) 128 8,
          (0 : ℤ) ∈ fingerprintFromPoints [0, 40] [0, 0] ((32 : ℤ), (128 : ℤ)) 128 8
            ((0 : ℤ), p.2, p.1 - 0)) :=
  have hsort : sortPoints (List.zip [0, 40] [0, 0]) =
      [((0 : ℤ), (0 : ℤ)), ((40 : ℤ), (0 : ℤ))] :=
    @List.eq_of_perm_of_sorted (ℤ × ℤ) pointLe ⟨pointLe_antisymm⟩ _ _
      (sortPoints_perm _) (sortPoints_sorted _) (by decide)
  ⟨by norm_num, by rw [hsort]; decide,
    targetZone_spec [0, 40] [0, 0] ((32 : ℤ), (128 : ℤ)) 128 8 (by norm_num)
      ((0 : ℤ), (0 : ℤ)) (by rw [hsort]; decide)⟩

/-- C4: the fingerprint is independent of the order in which the feature points
are supplied: permuted point sequences give identical fingerprint mappings. -/
theorem fingerprint_order_independent (t1 f1 t2 f2 : List ℤ) (timeOffsets : ℤ × ℤ)
    (maxFrequencyOffset : ℤ) (size : ℕ) (h : (t1.zip f1).Perm (t2.zip f2)) :
    fingerprintFromPoints t1 f1 timeOffsets maxFrequencyOffset size =
      fingerprintFromPoints t2 f2 timeOffsets maxFrequencyOffset size := by
  unfold fingerprintFromPoints
  rw [sortPoints_eq_of_perm h]

/-- Witness for C4 at a concrete shuffled pair of point sequences. -/
theorem fingerprint_order_independent_witness :
    (List.zip [(0 : ℤ), 5] [(1 : ℤ), 2]).Perm (List.zip [(5 : ℤ), 0] [(2 : ℤ), 1]) ∧
      fingerprintFromPoints [(0 : ℤ), 5] [(1 : ℤ), 2] ((32 : ℤ), (128 : ℤ)) 128 8 =
        fingerprintFromPoints [(5 : ℤ), 0] [(2 : ℤ), 1] ((32 : ℤ), (128 : ℤ)) 128 8 :=
  ⟨by decide,
    fingerprint_order_independent [(0 : ℤ), 5] [(1 : ℤ), 2] [(5 : ℤ), 0] [(2 : ℤ), 1]
      ((32 : ℤ), (128 : ℤ)) 128 8 (by decide)⟩

/-! Lemmas for claims C5 and C6: the self match and the disjoint match. -/

theorem fpLookup_eq_none {α : Type} [DecidableEq α] (d : α) :
    ∀ fp : Fingerprints α, d ∉ fpKeys fp → fpLookup d fp = none
  | [], _ => rfl
  | e :: rest, h => by
    simp only [fpKeys, List.map_cons, List.mem_cons, not_or] at h
    unfold fpLookup
    rw [if_neg (fun heq => h.1 heq.symm),
      fpLookup_eq_none d rest (by simpa [fpKeys] using h.2)]

theorem fpLookup_self {α : Type} [DecidableEq α] :
    ∀ (fp : Fingerprints α), (fpKeys fp).Nodup → ∀ e ∈ fp, fpLookup e.1 fp = some e.2
  | [], _, e, he => absurd he (List.not_mem_nil e)
  | f :: rest, hnd, e, he => by
    have hnd' : f.1 ∉ rest.map Prod.fst ∧ (rest.map Prod.fst).Nodup :=
      List.nodup_cons.mp hnd
    unfold fpLookup
    rcases List.mem_cons.mp he with h | h
    · rw [if_pos (by rw [h]), h]
    · rw [if_neg, fpLookup_self rest hnd'.2 e h]
      intro heq
      have hkey : e.1 ∈ rest.map Prod.fst := List.mem_map_of_mem Prod.fst h
      rw [← heq] at hkey
      exact hnd'.1 hkey

theorem count_listSum (δ : ℤ) :
    ∀ l : List (Multiset ℤ), l.sum.count δ = (l.map (fun s => s.count δ)).sum
  | [] => by simp
  | s :: rest => by
    simp only [List.sum_cons, List.map_cons, Multiset.count_add]
    rw [count_listSum δ rest]

theorem count_pairs (S T : Finset ℤ) (δ : ℤ) :
    (((S ×ˢ T).val.map (fun p => p.1 - p.2)).count δ) =
      ((S ×ˢ T).filter (fun p => p.1 - p.2 = δ)).card := by
  rw [Multiset.count_map]
  rw [show ((S ×ˢ T).filter (fun p => p.1 - p.2 = δ)).card =
    Multiset.card (Multiset.filter (fun p => p.1 - p.2 = δ) (S ×ˢ T).val) from rfl]
  congr 1
  apply Multiset.filter_congr
  intro p _
  constructor
  · intro h
    rw [h]
  · intro h
    rw [h]

theorem card_filter_diag (S : Finset ℤ) :
    ((S ×ˢ S).filter (fun p => p.1 - p.2 = (0 : ℤ))).card = S.card := by
  symm
  apply Finset.card_nbij (fun a => (a, a))
  · intro a ha
    rw [Finset.mem_filter, Finset.mem_product]
    exact ⟨⟨ha, ha⟩, by ring⟩
  · intro a _ b _ hab
    exact congrArg Prod.fst hab
  · intro p hp
    rw [Finset.mem_coe, Finset.mem_filter, Finset.mem_product] at hp
    obtain ⟨⟨h1, _⟩, hdiag⟩ := hp
    refine ⟨p.1, by simpa using h1, ?_⟩
    show (p.1, p.1) = p
    rw [Prod.ext_iff]
    exact ⟨rfl, by omega⟩

theorem card_filter_shift_le (S T : Finset ℤ) (δ : ℤ) :
    ((S ×ˢ T).filter (fun p => p.1 - p.2 = δ)).card ≤ S.card := by
  apply Finset.card_le_card_of_injOn Prod.fst
  · intro p hp
    rw [Finset.mem_filter, Finset.mem_product] at hp
    exact hp.1.1
  · intro p hp q hq hfst
    rw [Finset.mem_coe, Finset.mem_filter] at hp hq
    obtain ⟨_, hp2⟩ := hp
    obtain ⟨_, hq2⟩ := hq
    rw [Prod.ext_iff]
    constructor
    · exact hfst
    · omega

theorem deltaTimes_self (α : Type) [DecidableEq α] (fp : Fingerprints α)
    (hnd : (fpKeys fp).Nodup) :
    deltaTimes fp fp = (fp.map (fun e => (e.2 ×ˢ e.2).val.map (fun p => p.1 - p.2))).sum := by
  unfold deltaTimes
  congr 1
  apply List.map_congr_left
  intro e he
  rw [fpLookup_self fp hnd e he]

/-- C5: matching a fingerprint against itself, the delta-0 histogram bin counts
every `(descriptor, time)` correspondence — the sum over descriptors of the size
of that descriptor's time set — and no other delta's bin exceeds it. -/
theorem self_match_histogram {α : Type} [DecidableEq α] (fp : Fingerprints α)
    (hnd : (fpKeys fp).Nodup) :
    (deltaTimes fp fp).count 0 = (fp.map (fun e => e.2.card)).sum ∧
      ∀ δ : ℤ, (deltaTimes fp fp).count δ ≤ (deltaTimes fp fp).count 0 := by
  have hcount : ∀ δ : ℤ, (deltaTimes fp fp).count δ =
      (fp.map (fun e => ((e.2 ×ˢ e.2).filter (fun p => p.1 - p.2 = δ)).card)).sum := by
    intro δ
    rw [deltaTimes_self α fp hnd, count_listSum, List.map_map]
    congr 1
    apply List.map_congr_left
    intro e _
    exact count_pairs e.2 e.2 δ
  have h0 : (deltaTimes fp fp).count 0 = (fp.map (fun e => e.2.card)).sum := by
    rw [hcount 0]
    congr 1
    apply List.map_congr_left
    intro e _
    exact card_filter_diag e.2
  refine ⟨h0, ?_⟩
  intro δ
  rw [hcount δ, h0]
  apply List.sum_le_sum
  intro e _
  exact card_filter_shift_le e.2 e.2 δ

/-- Witness for C5 at a concrete one-descriptor fingerprint with two times. -/
theorem self_match_histogram_witness :
    (fpKeys [((0 : ℤ), ({3, 5} : Finset ℤ))]).Nodup ∧
      ((deltaTimes [((0 : ℤ), ({3, 5} : Finset ℤ))] [((0 : ℤ), ({3, 5} : Finset ℤ))]).count 0 =
          ([((0 : ℤ), ({3, 5} : Finset ℤ))].map (fun e => e.2.card)).sum ∧
        ∀ δ : ℤ,
          (deltaTimes [((0 : ℤ), ({3, 5} : Finset ℤ))]
            [((0 : ℤ), ({3, 5} : Finset ℤ))]).count δ ≤
          (deltaTimes [((0 : ℤ), ({3, 5} : Finset ℤ))]
            [((0 : ℤ), ({3, 5} : Finset ℤ))]).count 0) :=
  ⟨by decide, self_match_histogram [((0 : ℤ), ({3, 5} : Finset ℤ))] (by decide)⟩

/-- C6: fingerprints with disjoint descriptor sets match with score 0, and the
computation terminates normally (the embedding is a total function). -/
theorem match_disjoint {α : Type} [DecidableEq α] (these those : Fingerprints α)
    (filterSize : ℕ) (h : ∀ d ∈ fpKeys these, d ∉ fpKeys those) :
    matchScore these those filterSize = 0 := by
  have hdt : deltaTimes these those = 0 := by
    unfold deltaTimes
    apply List.sum_eq_zero
    intro x hx
    rw [List.mem_map] at hx
    obtain ⟨e, he, rfl⟩ := hx
    rw [fpLookup_eq_none e.1 those (h e.1 (List.mem_map_of_mem Prod.fst he))]
  unfold matchScore
  rw [if_pos hdt]

/-- Witness for C6 at two concrete disjoint fingerprints. -/
theorem match_disjoint_witness :
    (∀ d ∈ fpKeys [((0 : ℤ), ({1} : Finset ℤ))], d ∉ fpKeys [((1 : ℤ), ({2} : Finset ℤ))]) ∧
      matchScore [((0 : ℤ), ({1} : Finset ℤ))] [((1 : ℤ), ({2} : Finset ℤ))] 3 = 0 :=
  ⟨by decide, match_disjoint [((0 : ℤ), ({1} : Finset ℤ))] [((1 : ℤ), ({2} : Finset ℤ))] 3
    (by decide)⟩

/-! Lemmas for claim C9: symmetry of the match score for odd filter sizes. -/

theorem sorted_headD_le : ∀ (l : List ℤ) (d : ℤ), List.Sorted (· ≤ ·) l →
    ∀ x ∈ l, l.headD d ≤ x
  | [], _, _, x, hx => absurd hx (List.not_mem_nil x)
  | a :: t, d, hs, x, hx => by
    rw [List.headD_cons]
    rcases List.mem_cons.mp hx with h | h
    · omega
    · exact (List.sorted_cons.mp hs).1 x h

theorem getLastD_mem : ∀ (l : List ℤ) (d : ℤ), l ≠ [] → l.getLastD d ∈ l
  | [], _, h => absurd rfl h
  | [a], d, _ => by simp
  | a :: b :: t, d, _ => by
    rw [List.getLastD_cons]
    exact List.mem_cons_of_mem a (getLastD_mem (b :: t) a (by simp))

theorem sorted_le_getLastD : ∀ (l : List ℤ) (d : ℤ), List.Sorted (· ≤ ·) l →
    ∀ x ∈ l, x ≤ l.getLastD d
  | [], _, _, x, hx => absurd hx (List.not_mem_nil x)
  | a :: t, d, hs, x, hx => by
    rw [List.getLastD_cons]
    cases t with
    | nil =>
      rcases List.mem_cons.mp hx with h | h
      · simp [h]
      · exact absurd h (List.not_mem_nil x)
    | cons b t' =>
      have hs' := List.sorted_cons.mp hs
      rcases List.mem_cons.mp hx with h | h
      · subst h
        exact le_trans (hs'.1 _ (getLastD_mem (b :: t') x (by simp)))
          (le_refl _)
      · exact sorted_le_getLastD (b :: t') a hs'.2 x h

theorem sort_ne_nil (s : Multiset ℤ) (hs : s ≠ 0) : s.sort (· ≤ ·) ≠ [] := by
  intro h
  apply hs
  have h2 := @Multiset.sort_eq ℤ (· ≤ ·) _ _ _ _ s
  rw [h] at h2
  simpa using h2.symm

theorem mem_sort_iff (s : Multiset ℤ) (x : ℤ) : x ∈ s.sort (· ≤ ·) ↔ x ∈ s := by
  rw [← Multiset.mem_coe, Multiset.sort_eq]

theorem multisetLo_mem (s : Multiset ℤ) (hs : s ≠ 0) : multisetLo s ∈ s := by
  unfold multisetLo
  cases hl : s.sort (· ≤ ·) with
  | nil => exact absurd hl (sort_ne_nil s hs)
  | cons a t =>
    rw [List.headD_cons]
    rw [← mem_sort_iff s a, hl]
    exact List.mem_cons_self a t

theorem multisetLo_le (s : Multiset ℤ) (x : ℤ) (hx : x ∈ s) : multisetLo s ≤ x :=
  sorted_headD_le _ 0 (Multiset.sort_sorted _ s) x ((mem_sort_iff s x).mpr hx)

theorem multisetHi_mem (s : Multiset ℤ) (hs : s ≠ 0) : multisetHi s ∈ s := by
  unfold multisetHi
  rw [← mem_sort_iff s]
  exact getLastD_mem _ 0 (sort_ne_nil s hs)

theorem le_multisetHi (s : Multiset ℤ) (x : ℤ) (hx : x ∈ s) : x ≤ multisetHi s :=
  sorted_le_getLastD _ 0 (Multiset.sort_sorted _ s) x ((mem_sort_iff s x).mpr hx)

theorem count_map_neg (s : Multiset ℤ) (δ : ℤ) :
    (s.map (fun x => -x)).count δ = s.count (-δ) := by
  have h := Multiset.count_map_eq_count' (fun x : ℤ => -x) s
    (fun a b hab => by simp only [neg_inj] at hab; exact hab) (-δ)
  simpa using h

theorem multisetLo_map_neg (s : Multiset ℤ) (hs : s ≠ 0) :
    multisetLo (s.map (fun x => -x)) = -multisetHi s := by
  have hne : s.map (fun x => -x) ≠ 0 := by
    rw [Ne, Multiset.map_eq_zero]
    exact hs
  apply le_antisymm
  · exact multisetLo_le _ _ (Multiset.mem_map_of_mem _ (multisetHi_mem s hs))
  · obtain ⟨x, hx, hconv⟩ := Multiset.mem_map.mp (multisetLo_mem _ hne)
    have := le_multisetHi s x hx
    omega

theorem multisetHi_map_neg (s : Multiset ℤ) (hs : s ≠ 0) :
    multisetHi (s.map (fun x => -x)) = -multisetLo s := by
  have hne : s.map (fun x => -x) ≠ 0 := by
    rw [Ne, Multiset.map_eq_zero]
    exact hs
  apply le_antisymm
  · obtain ⟨x, hx, hconv⟩ := Multiset.mem_map.mp (multisetHi_mem _ hne)
    have := multisetLo_le s x hx
    omega
  · exact le_multisetHi _ _ (Multiset.mem_map_of_mem _ (multisetLo_mem s hs))

theorem fpLookup_isSome {α : Type} [DecidableEq α] (d : α) :
    ∀ fp : Fingerprints α, d ∈ fpKeys fp → ∃ t, fpLookup d fp = some t
  | [], h => absurd h (List.not_mem_nil d)
  | e :: rest, h => by
    unfold fpLookup
    by_cases heq : e.1 = d
    · exact ⟨e.2, if_pos heq⟩
    · rw [if_neg heq]
      apply fpLookup_isSome d rest
      rcases List.mem_cons.mp h with h1 | h1
      · exact absurd h1.symm heq
      · exact h1

theorem count_deltaTimes_inter {α : Type} [DecidableEq α] (A B : Fingerprints α)
    (hA : (fpKeys A).Nodup) (δ : ℤ) :
    (deltaTimes A B).count δ =
      ∑ d ∈ (fpKeys A).toFinset ∩ (fpKeys B).toFinset,
        ((((fpLookup d A).getD ∅) ×ˢ ((fpLookup d B).getD ∅)).filter
          (fun p => p.1 - p.2 = δ)).card := by
  have h1 : (deltaTimes A B).count δ =
      (A.map (fun (e : α × Finset ℤ) => if e.1 ∈ (fpKeys B).toFinset then
        ((((fpLookup e.1 A).getD ∅) ×ˢ ((fpLookup e.1 B).getD ∅)).filter
          (fun p => p.1 - p.2 = δ)).card else 0)).sum := by
    unfold deltaTimes
    rw [count_listSum, List.map_map]
    apply congrArg List.sum
    apply List.map_congr_left
    intro e he
    have hAe : (fpLookup e.1 A).getD ∅ = e.2 := by
      rw [fpLookup_self A hA e he]
      rfl
    show (match fpLookup e.1 B with
        | some t => (e.2 ×ˢ t).val.map (fun (p : ℤ × ℤ) => p.1 - p.2)
        | none => (0 : Multiset ℤ)).count δ = _
    by_cases hmem : e.1 ∈ fpKeys B
    · obtain ⟨t, ht⟩ := fpLookup_isSome e.1 B hmem
      rw [ht, if_pos (List.mem_toFinset.mpr hmem), hAe]
      exact count_pairs e.2 t δ
    · rw [fpLookup_eq_none e.1 B hmem, if_neg (fun hc => hmem (List.mem_toFinset.mp hc))]
      rfl
  rw [h1]
  have h2 : (A.map (fun (e : α × Finset ℤ) => if e.1 ∈ (fpKeys B).toFinset then
      ((((fpLookup e.1 A).getD ∅) ×ˢ ((fpLookup e.1 B).getD ∅)).filter
        (fun p => p.1 - p.2 = δ)).card else 0)).sum =
      ((fpKeys A).map (fun (d : α) => if d ∈ (fpKeys B).toFinset then
        ((((fpLookup d A).getD ∅) ×ˢ ((fpLookup d B).getD ∅)).filter
          (fun p => p.1 - p.2 = δ)).card else 0)).sum := by
    unfold fpKeys
    rw [List.map_map]
    rfl
  rw [h2, ← List.sum_toFinset _ hA, Finset.sum_ite_mem]

theorem card_filter_swap (S T : Finset ℤ) (δ : ℤ) :
    ((S ×ˢ T).filter (fun p => p.1 - p.2 = δ)).card =
      ((T ×ˢ S).filter (fun p => p.1 - p.2 = -δ)).card := by
  apply Finset.card_nbij (fun p => (p.2, p.1))
  · intro p hp
    rw [Finset.mem_filter, Finset.mem_product] at hp ⊢
    exact ⟨⟨hp.1.2, hp.1.1⟩, by omega⟩
  · intro p hp q hq hswap
    rw [Prod.ext_iff] at hswap ⊢
    exact ⟨hswap.2, hswap.1⟩
  · intro q hq
    rw [Finset.mem_coe, Finset.mem_filter, Finset.mem_product] at hq
    refine ⟨(q.2, q.1), ?_, rfl⟩
    rw [Finset.mem_coe, Finset.mem_filter, Finset.mem_product]
    exact ⟨⟨hq.1.2, hq.1.1⟩, by omega⟩

theorem deltaTimes_swap {α : Type} [DecidableEq α] (A B : Fingerprints α)
    (hA : (fpKeys A).Nodup) (hB : (fpKeys B).Nodup) :
    deltaTimes B A = (deltaTimes A B).map (fun x => -x) := by
  rw [Multiset.ext]
  intro δ
  rw [count_map_neg, count_deltaTimes_inter B A hB δ, count_deltaTimes_inter A B hA (-δ),
    Finset.inter_comm]
  apply Finset.sum_congr rfl
  intro d _
  rw [card_filter_swap]

theorem histogramCounts_length (s : Multiset ℤ) (lo : ℤ) (len : ℕ) :
    (histogramCounts s lo len).length = len := by
  simp [histogramCounts]

theorem histogramCounts_getElem? (s : Multiset ℤ) (lo : ℤ) (len i : ℕ) (h : i < len) :
    (histogramCounts s lo len)[i]? = some (s.count (lo + (i : ℤ))) := by
  unfold histogramCounts
  rw [List.getElem?_map, List.getElem?_range h, Option.map_some']

theorem slidingSum_length (h : List ℕ) (size : ℕ) : (slidingSum h size).length = h.length := by
  simp [slidingSum]

theorem slidingSum_getElem? (h : List ℕ) (size j : ℕ) (hj : j < h.length) :
    (slidingSum h size)[j]? = some (((List.range size).map
      (fun (o : ℕ) => getPad h ((j : ℤ) + (o : ℤ) - ((size / 2 : ℕ) : ℤ)))).sum) := by
  unfold slidingSum
  rw [List.getElem?_map, List.getElem?_range hj, Option.map_some']

theorem sum_map_range (f : ℕ → ℕ) : ∀ n : ℕ,
    ((List.range n).map f).sum = ∑ o ∈ Finset.range n, f o
  | 0 => by simp
  | n + 1 => by
    rw [List.range_succ, List.map_append, List.sum_append, Finset.sum_range_succ,
      sum_map_range f n]
    simp

theorem getPad_reverse (h : List ℕ) (i : ℤ) :
    getPad h.reverse i = getPad h ((h.length : ℤ) - 1 - i) := by
  unfold getPad
  by_cases h1 : i < 0
  · rw [if_pos h1, if_neg (by omega)]
    rw [List.getD_eq_getElem?_getD, List.getElem?_eq_none (by omega)]
    rfl
  · rw [if_neg h1]
    by_cases h2 : i < h.length
    · rw [if_neg (by omega)]
      rw [List.getD_eq_getElem?_getD, List.getD_eq_getElem?_getD]
      rw [List.getElem?_reverse (by omega : i.toNat < h.length)]
      rw [show h.length - 1 - i.toNat = ((h.length : ℤ) - 1 - i).toNat from by omega]
    · rw [if_pos (by omega)]
      rw [List.getD_eq_getElem?_getD,
        List.getElem?_eq_none (by rw [List.length_reverse]; omega)]
      rfl

theorem histogram_reverse (D : Multiset ℤ) (hD : D ≠ 0) :
    histogramCounts (D.map (fun x => -x)) (-multisetHi D)
        ((multisetHi D - multisetLo D + 1).toNat) =
      (histogramCounts D (multisetLo D) ((multisetHi D - multisetLo D + 1).toNat)).reverse := by
  have hlohi : multisetLo D ≤ multisetHi D := multisetLo_le D _ (multisetHi_mem D hD)
  apply List.ext_getElem?
  intro i
  by_cases hi : i < (multisetHi D - multisetLo D + 1).toNat
  · rw [histogramCounts_getElem? _ _ _ i hi]
    rw [List.getElem?_reverse (by rw [histogramCounts_length]; exact hi)]
    rw [histogramCounts_length, histogramCounts_getElem? _ _ _ _ (by omega)]
    rw [count_map_neg]
    congr 2
    omega
  · rw [List.getElem?_eq_none (by rw [histogramCounts_length]; omega),
      List.getElem?_eq_none (by rw [List.length_reverse, histogramCounts_length]; omega)]

theorem slidingSum_reverse (h : List ℕ) (k : ℕ) :
    slidingSum h.reverse (2 * k + 1) = (slidingSum h (2 * k + 1)).reverse := by
  apply List.ext_getElem?
  intro j
  by_cases hj : j < h.length
  · rw [slidingSum_getElem? _ _ j (by rw [List.length_reverse]; exact hj)]
    rw [List.getElem?_reverse (by rw [slidingSum_length]; exact hj)]
    rw [slidingSum_length, slidingSum_getElem? _ _ _ (by omega)]
    congr 1
    rw [sum_map_range, sum_map_range]
    conv_rhs => rw [← Finset.sum_range_reflect]
    apply Finset.sum_congr rfl
    intro o ho
    rw [Finset.mem_range] at ho
    rw [getPad_reverse]
    congr 1
    omega
  · rw [List.getElem?_eq_none (by rw [slidingSum_length, List.length_reverse]; omega),
      List.getElem?_eq_none (by rw [List.length_reverse, slidingSum_length]; omega)]

theorem foldr_max_init : ∀ (l : List ℕ) (a : ℕ), l.foldr max a = max (l.foldr max 0) a
  | [], a => by simp
  | x :: t, a => by
    simp only [List.foldr_cons]
    rw [foldr_max_init t a]
    omega

theorem maxList_append (l : List ℕ) (a : ℕ) : maxList (l ++ [a]) = max (maxList l) a := by
  unfold maxList
  rw [List.foldr_append]
  simp only [List.foldr_cons, List.foldr_nil]
  rw [foldr_max_init]
  omega

theorem maxList_reverse : ∀ l : List ℕ, maxList l.reverse = maxList l
  | [] => rfl
  | a :: t => by
    rw [List.reverse_cons, maxList_append, maxList_reverse t]
    show _ = maxList (a :: t)
    unfold maxList
    simp only [List.foldr_cons]
    omega

/-- C9: the match score is symmetric in its two fingerprint arguments whenever
the histogram smoothing window size is odd (keys of each fingerprint dictionary
are pairwise distinct, as in a Python dict): swapping the arguments negates
every time delta, which reverses the histogram, and the maximum of the
zero-padded sliding-sum filter is invariant under reversal. -/
theorem match_symmetric {α : Type} [DecidableEq α] (A B : Fingerprints α) (k : ℕ)
    (hA : (fpKeys A).Nodup) (hB : (fpKeys B).Nodup) :
    matchScore A B (2 * k + 1) = matchScore B A (2 * k + 1) := by
  have hswap := deltaTimes_swap A B hA hB
  by_cases hempty : deltaTimes A B = 0
  · unfold matchScore
    rw [if_pos hempty, if_pos (by rw [hswap, hempty]; simp)]
  · have h2 : deltaTimes B A ≠ 0 := by
      rw [hswap, Ne, Multiset.map_eq_zero]
      exact hempty
    unfold matchScore
    rw [if_neg hempty, if_neg h2, hswap]
    rw [multisetLo_map_neg _ hempty, multisetHi_map_neg _ hempty]
    rw [show -multisetLo (deltaTimes A B) - -multisetHi (deltaTimes A B) + 1 =
      multisetHi (deltaTimes A B) - multisetLo (deltaTimes A B) + 1 from by ring]
    rw [histogram_reverse _ hempty, slidingSum_reverse, maxList_reverse]

/-- Witness for C9 at two concrete single-descriptor fingerprints and the
default window size 3. -/
theorem match_symmetric_witness :
    (fpKeys [((0 : ℤ), ({0} : Finset ℤ))]).Nodup ∧
      (fpKeys [((0 : ℤ), ({1} : Finset ℤ))]).Nodup ∧
      matchScore [((0 : ℤ), ({0} : Finset ℤ))] [((0 : ℤ), ({1} : Finset ℤ))] (2 * 1 + 1) =
        matchScore [((0 : ℤ), ({1} : Finset ℤ))] [((0 : ℤ), ({0} : Finset ℤ))] (2 * 1 + 1) :=
  ⟨by decide, by decide,
    match_symmetric [((0 : ℤ), ({0} : Finset ℤ))] [((0 : ℤ), ({1} : Finset ℤ))] 1
      (by decide) (by decide)⟩

/-! Claim C10: decimation with downsampling factor 1 fails. -/

/-- C10: `decimate(signal, 1)` fails rather than returning the signal unchanged —
the anti-aliasing cutoff `1 / 1 = 1` violates the FIR precondition
`0 < cutoff < 1` — while every integer factor of at least 2 passes the filter
preconditions (with the default even filter order 30). -/
theorem decimate_factor_one_fails (signal : List ℝ) :
    decimate signal 1 30 = none ∧
      ∀ factor : ℕ, 2 ≤ factor → (decimate signal factor 30).isSome = true := by
  constructor
  · unfold decimate antiAliasingFilter antiAliasingWindow fir
    rw [if_neg]
    · rfl
    · intro hcond
      have h3 := hcond.2.2
      norm_num at h3
  · intro factor hf
    have hf' : (0 : ℝ) < (factor : ℝ) := by
      exact_mod_cast Nat.lt_of_lt_of_le (by norm_num) hf
    unfold decimate antiAliasingFilter antiAliasingWindow fir
    rw [if_pos]
    · rfl
    · refine ⟨by norm_num, div_pos one_pos hf', ?_⟩
      rw [div_lt_one hf']
      exact_mod_cast Nat.lt_of_lt_of_le (by norm_num) hf

/-- Witness for C10 at a concrete signal, with factors 1 and 2. -/
theorem decimate_factor_one_fails_witness :
    decimate [(1 : ℝ)] 1 30 = none ∧ (decimate [(1 : ℝ)] 2 30).isSome = true :=
  ⟨(decimate_factor_one_fails [(1 : ℝ)]).1,
    (decimate_factor_one_fails [(1 : ℝ)]).2 2 (by norm_num)⟩

/-! Lemmas for claims C7 and C8: spectrogram shape and cell values. -/

theorem fft_some_length (s : List ℂ) (j c : ℕ) (hc : c = 2 ^ j) :
    (fft s (some c)).length = c := by
  unfold fft
  rw [show (some c).getD s.length = c from rfl]
  have hlen : ((zeroPad s c).take c).length = c := by
    unfold zeroPad
    rw [List.length_take, List.length_append, List.length_replicate]
    omega
  rw [cooleyTukey_length j _ (by rw [hlen, hc]), hlen]

theorem stft_row_length (signal window : List ℂ) (overlap j : ℕ)
    (hwin : window.length = 2 ^ j) :
    ∀ row ∈ stft signal window overlap (some window.length), row.length = window.length := by
  intro row hrow
  unfold stft at hrow
  rw [List.mem_map] at hrow
  obtain ⟨k, _, rfl⟩ := hrow
  exact fft_some_length _ j _ hwin

theorem psdRow_length (scale : ℝ) (realDftCount : ℕ) (row : List ℂ) :
    (psdRow scale realDftCount row).length = min realDftCount row.length := by
  simp [psdRow, squareList, magnitude, List.enum_length]

theorem psdRow_getElem? (scale : ℝ) (realDftCount : ℕ) (row : List ℂ) (i : ℕ)
    (hiR : i < realDftCount) (hirow : i < row.length) :
    (psdRow scale realDftCount row)[i]? =
      some (Complex.abs (row.getD i 0) ^ 2 * scale *
        (if i = 0 ∨ i = realDftCount - 1 then 1 else 2)) := by
  unfold psdRow squareList magnitude
  rw [List.getElem?_map, List.getElem?_enum, List.getElem?_map, List.getElem?_map,
    List.getElem?_take, if_pos hiR, List.getElem?_eq_getElem hirow]
  simp only [Option.map_some']
  rw [List.getD_eq_getElem?_getD, List.getElem?_eq_getElem hirow]
  rfl

theorem realSpectogram_row_length (signal window : List ℝ) (fs : ℝ) (overlap j : ℕ)
    (hwin : window.length = 2 ^ j) :
    ∀ row ∈ (realSpectogram signal fs window overlap none).1,
      row.length = window.length / 2 + 1 := by
  have hpos : 0 < window.length := by
    rw [hwin]
    exact pow_pos (by norm_num) j
  have hwinC : (window.map Complex.ofReal).length = 2 ^ j := by
    rw [List.length_map, hwin]
  intro row hrow
  have hgrid : (realSpectogram signal fs window overlap none).1 =
      (stft (signal.map Complex.ofReal) (window.map Complex.ofReal) overlap
        (some window.length)).map
        (psdRow (windowScale window fs) (window.length / 2 + 1)) := rfl
  rw [hgrid, List.mem_map] at hrow
  obtain ⟨r', hr', rfl⟩ := hrow
  rw [psdRow_length]
  have hrl : r'.length = window.length := by
    have h := stft_row_length (signal.map Complex.ofReal)
      (window.map Complex.ofReal) overlap j hwinC r'
      (by rw [List.length_map]; exact hr')
    rw [List.length_map] at h
    exact h
  rw [hrl]
  omega

/-- C7: with the default `dft_count = len(window)` (a power of two) and
`overlap < len(window)`, `real_spectogram` keeps one row per STFT frame, each
row keeps only the first `dft_count / 2 + 1` frequency bins, and each cell
equals the frame's squared STFT magnitude times `scale = 1 / (sum window^2 * fs)`,
doubled for every bin except the first (DC, index 0) and the last (Nyquist,
index `dft_count / 2`). -/
theorem realSpectogram_cells (signal window : List ℝ) (fs : ℝ) (overlap j : ℕ)
    (hwin : window.length = 2 ^ j) (hov : overlap < window.length) :
    ((realSpectogram signal fs window overlap none).1.length =
        (stft (signal.map Complex.ofReal) (window.map Complex.ofReal) overlap
          (some window.length)).length) ∧
      (∀ row ∈ (realSpectogram signal fs window overlap none).1,
        row.length = window.length / 2 + 1) ∧
      ∀ t i : ℕ,
        t < (stft (signal.map Complex.ofReal) (window.map Complex.ofReal) overlap
          (some window.length)).length →
        i < window.length / 2 + 1 →
        ((realSpectogram signal fs window overlap none).1.getD t []).getD i 0 =
          Complex.abs
            (((stft (signal.map Complex.ofReal) (window.map Complex.ofReal) overlap
              (some window.length)).getD t []).getD i 0) ^ 2 *
            windowScale window fs *
            (if i = 0 ∨ i = window.length / 2 then 1 else 2) := by
  have hpos : 0 < window.length := by
    rw [hwin]
    exact pow_pos (by norm_num) j
  have hwinC : (window.map Complex.ofReal).length = 2 ^ j := by
    rw [List.length_map, hwin]
  have hgrid : (realSpectogram signal fs window overlap none).1 =
      (stft (signal.map Complex.ofReal) (window.map Complex.ofReal) overlap
        (some window.length)).map
        (psdRow (windowScale window fs) (window.length / 2 + 1)) := rfl
  rw [hgrid]
  refine ⟨by rw [List.length_map], ?_, ?_⟩
  · rw [← hgrid]
    exact realSpectogram_row_length signal window fs overlap j hwin
  · intro t i ht hi
    simp only [List.getD_eq_getElem?_getD]
    rw [List.getElem?_map, List.getElem?_eq_getElem ht]
    simp only [Option.map_some', Option.getD_some]
    have hmem := List.getElem_mem ht
    have hrl : ((stft (signal.map Complex.ofReal) (window.map Complex.ofReal) overlap
        (some window.length))[t]).length = window.length := by
      have h := stft_row_length (signal.map Complex.ofReal)
        (window.map Complex.ofReal) overlap j hwinC _
        (by rw [List.length_map]; exact hmem)
      rw [List.length_map] at h
      exact h
    rw [psdRow_getElem? _ _ _ i hi (by rw [hrl]; omega)]
    simp only [Option.getD_some, List.getD_eq_getElem?_getD]
    rw [show window.length / 2 + 1 - 1 = window.length / 2 from by omega]

/-- Witness for C7 at a concrete three-sample signal and a length-2 window. -/
theorem realSpectogram_cells_witness :
    ([(1 : ℝ), 1].length = 2 ^ 1) ∧ ((0 : ℕ) < [(1 : ℝ), 1].length) ∧
      (((realSpectogram [(1 : ℝ), 2, 3] 4 [(1 : ℝ), 1] 0 none).1.length =
          (stft ([(1 : ℝ), 2, 3].map Complex.ofReal) ([(1 : ℝ), 1].map Complex.ofReal) 0
            (some [(1 : ℝ), 1].length)).length) ∧
        (∀ row ∈ (realSpectogram [(1 : ℝ), 2, 3] 4 [(1 : ℝ), 1] 0 none).1,
          row.length = [(1 : ℝ), 1].length / 2 + 1) ∧
        ∀ t i : ℕ,
          t < (stft ([(1 : ℝ), 2, 3].map Complex.ofReal) ([(1 : ℝ), 1].map Complex.ofReal) 0
            (some [(1 : ℝ), 1].length)).length →
          i < [(1 : ℝ), 1].length / 2 + 1 →
          ((realSpectogram [(1 : ℝ), 2, 3] 4 [(1 : ℝ), 1] 0 none).1.getD t []).getD i 0 =
            Complex.abs
              (((stft ([(1 : ℝ), 2, 3].map Complex.ofReal) ([(1 : ℝ), 1].map Complex.ofReal) 0
                (some [(1 : ℝ), 1].length)).getD t []).getD i 0) ^ 2 *
              windowScale [(1 : ℝ), 1] 4 *
              (if i = 0 ∨ i = [(1 : ℝ), 1].length / 2 then 1 else 2)) :=
  ⟨rfl, by norm_num,
    realSpectogram_cells [(1 : ℝ), 2, 3] [(1 : ℝ), 1] 4 0 1 rfl (by norm_num)⟩

theorem symmetricCosine_length (coefficients : List ℝ) (count : ℕ) :
    (symmetricCosine coefficients count).length = count := by
  simp [symmetricCosine]

theorem hamming_length (count : ℕ) : (hamming count).length = count := by
  unfold hamming cosine periodicCosine
  by_cases h : count % 2 = 0
  · rw [if_pos h, List.length_dropLast, symmetricCosine_length]
    omega
  · rw [if_neg h, symmetricCosine_length]

theorem frequencyBinCenters_length (count : ℕ) (fs : ℝ) :
    (frequencyBinCenters count fs).length = count := by
  simp [frequencyBinCenters]

theorem frequencyBinCenters_getElem? (count : ℕ) (fs : ℝ) (k : ℕ) (hk : k < count) :
    (frequencyBinCenters count fs)[k]? = some ((k : ℝ) * (fs / (count : ℝ))) := by
  unfold frequencyBinCenters
  rw [List.getElem?_map, List.getElem?_range hk, Option.map_some']

/-- C8: in the fingerprinting pipeline the one-sided spectrogram and its
frequency axis are sliced with `[1:-2]`: every grid row has exactly as many
columns as the frequency axis has entries, the axis has `2^(j-1) - 2` entries
for window length `2^j`, and its `i`-th entry is the bin center of bin `i + 1`
— so bin 0 (DC, 0 Hz) and bin `2^(j-1)` (Nyquist, `fs/2`) are excluded (the
first bin and the last two bins of the one-sided spectrum are dropped). -/
theorem spectogram_excludes_dc_nyquist (signal : List ℝ) (fs : ℝ) (j overlap : ℕ)
    (hj : 2 ≤ j) (hov : overlap < 2 ^ j) :
    (∀ row ∈ (spectogramFromSignal signal fs (2 ^ j) overlap).1,
        row.length = (spectogramFromSignal signal fs (2 ^ j) overlap).2.2.length) ∧
      (spectogramFromSignal signal fs (2 ^ j) overlap).2.2.length = 2 ^ (j - 1) - 2 ∧
      ∀ i : ℕ, i < (spectogramFromSignal signal fs (2 ^ j) overlap).2.2.length →
        (spectogramFromSignal signal fs (2 ^ j) overlap).2.2.getD i 0 =
          ((i : ℝ) + 1) * (fs / ((2 : ℝ) ^ j)) := by
  have hhl : (hamming (2 ^ j)).length = 2 ^ j := hamming_length (2 ^ j)
  have hhalf : 2 ^ j / 2 = 2 ^ (j - 1) := by
    have h : 2 ^ j = 2 ^ (j - 1) * 2 := by
      rw [← pow_succ]
      congr 1
      omega
    rw [h, Nat.mul_div_cancel _ (by norm_num)]
  have hpow : (2 : ℕ) ≤ 2 ^ (j - 1) := by
    calc (2 : ℕ) = 2 ^ 1 := by norm_num
    _ ≤ 2 ^ (j - 1) := Nat.pow_le_pow_right (by norm_num) (by omega)
  have hfreq : (spectogramFromSignal signal fs (2 ^ j) overlap).2.2 =
      (((frequencyBinCenters (hamming (2 ^ j)).length fs).take
          ((hamming (2 ^ j)).length / 2 + 1)).drop 1).take
        (((frequencyBinCenters (hamming (2 ^ j)).length fs).take
          ((hamming (2 ^ j)).length / 2 + 1)).length - 3) := rfl
  have hprelen : ((frequencyBinCenters (hamming (2 ^ j)).length fs).take
      ((hamming (2 ^ j)).length / 2 + 1)).length = 2 ^ (j - 1) + 1 := by
    rw [List.length_take, frequencyBinCenters_length, hhl, hhalf]
    have : 2 ^ (j - 1) + 1 ≤ 2 ^ j := by
      have h : 2 ^ j = 2 ^ (j - 1) * 2 := by
        rw [← pow_succ]
        congr 1
        omega
      omega
    omega
  have hlen : (spectogramFromSignal signal fs (2 ^ j) overlap).2.2.length =
      2 ^ (j - 1) - 2 := by
    rw [hfreq, List.length_take, List.length_drop, hprelen]
    omega
  refine ⟨?_, hlen, ?_⟩
  · intro row hrow
    rw [hlen]
    have hgrid : (spectogramFromSignal signal fs (2 ^ j) overlap).1 =
        (realSpectogram signal fs (hamming (2 ^ j)) overlap none).1.map
          (fun row => (row.drop 1).take (row.length - 3)) := rfl
    rw [hgrid, List.mem_map] at hrow
    obtain ⟨r', hr', rfl⟩ := hrow
    have hrl : r'.length = 2 ^ j / 2 + 1 := by
      have h := realSpectogram_row_length signal (hamming (2 ^ j)) fs overlap j hhl r' hr'
      rw [hhl] at h
      exact h
    rw [List.length_take, List.length_drop, hrl, hhalf]
    omega
  · intro i hi
    rw [hlen] at hi
    rw [hfreq, List.getD_eq_getElem?_getD, List.getElem?_take, if_pos (by rw [hprelen]; omega),
      List.getElem?_drop, List.getElem?_take, if_pos (by rw [hhl, hhalf]; omega),
      frequencyBinCenters_getElem? _ _ _ (by
        rw [hhl]
        have h2 : 2 ^ j = 2 ^ (j - 1) * 2 := by
          rw [← pow_succ]
          congr 1
          omega
        omega)]
    rw [hhl]
    simp only [Option.getD_some]
    push_cast
    ring

/-- Witness for C8 at the concrete pipeline window length `2^2 = 4`. -/
theorem spectogram_excludes_dc_nyquist_witness :
    (2 ≤ 2) ∧ ((1 : ℕ) < 2 ^ 2) ∧
      ((∀ row ∈ (spectogramFromSignal [(1 : ℝ), 2, 3, 4, 5] 8 (2 ^ 2) 1).1,
          row.length = (spectogramFromSignal [(1 : ℝ), 2, 3, 4, 5] 8 (2 ^ 2) 1).2.2.length) ∧
        (spectogramFromSignal [(1 : ℝ), 2, 3, 4, 5] 8 (2 ^ 2) 1).2.2.length = 2 ^ (2 - 1) - 2 ∧
        ∀ i : ℕ, i < (spectogramFromSignal [(1 : ℝ), 2, 3, 4, 5] 8 (2 ^ 2) 1).2.2.length →
          (spectogramFromSignal [(1 : ℝ), 2, 3, 4, 5] 8 (2 ^ 2) 1).2.2.getD i 0 =
            ((i : ℝ) + 1) * (8 / ((2 : ℝ) ^ 2))) :=
  ⟨by norm_num, by norm_num,
    spectogram_excludes_dc_nyquist [(1 : ℝ), 2, 3, 4, 5] 8 2 1 (by norm_num) (by norm_num)⟩

end AudioDetective
